import Mathlib

/-!
Verification of the color-harmonization core of `src/main.rs` (gruvboxer).

The embedding idealizes the program's `f32` arithmetic as exact arithmetic:
pixel Lab channels and the palette constants are rationals (every finite
`f32` is rational), and the transcendental steps (`sqrt` in the ΔE metric,
`exp` in the blend) are the corresponding real functions.  The single
operation of the harmonization core that can produce a non-finite `f32`
value — `recip` of `0.0` inside `blend_channel` — is tracked explicitly:
an `Option ℝ` value of `none` marks a non-finite (infinite or NaN) result.
Color-space conversions (`palette` crate) are external to the repository;
claims about the per-pixel pipeline are therefore stated over arbitrary
conversion outputs.
-/

namespace Gruvboxer

/-- A Lab color (illuminant D65) with exact rational channels. -/
structure LabQ where
  l : ℚ
  a : ℚ
  b : ℚ
deriving DecidableEq

/-- Palette entry `GRUVBOX_LAB[0]` (background). -/
def gb0 : LabQ := ⟨2977/100, 16/100, 20/100⟩

/-- Palette entry `GRUVBOX_LAB[1]` (foreground). -/
def gb1 : LabQ := ⟨8697/100, -86/100, 992/100⟩

/-- Palette entry `GRUVBOX_LAB[2]` (red). -/
def gb2 : LabQ := ⟨4436/100, 5540/100, 3713/100⟩

/-- Palette entry `GRUVBOX_LAB[3]` (green). -/
def gb3 : LabQ := ⟨5683/100, -2199/100, 5627/100⟩

/-- Palette entry `GRUVBOX_LAB[4]` (yellow). -/
def gb4 : LabQ := ⟨6517/100, 1015/100, 5742/100⟩

/-- Palette entry `GRUVBOX_LAB[5]` (blue). -/
def gb5 : LabQ := ⟨4959/100, -926/100, -2491/100⟩

/-- Palette entry `GRUVBOX_LAB[6]` (purple). -/
def gb6 : LabQ := ⟨5170/100, 3404/100, -1460/100⟩

/-- Palette entry `GRUVBOX_LAB[7]` (aqua). -/
def gb7 : LabQ := ⟨5869/100, -2830/100, 1525/100⟩

/-- Palette entry `GRUVBOX_LAB[8]` (orange). -/
def gb8 : LabQ := ⟨5333/100, 3977/100, 5278/100⟩

/-- The fixed 9-entry palette constant `GRUVBOX_LAB`, in array order. -/
def GRUVBOX_LAB : List LabQ := [gb0, gb1, gb2, gb3, gb4, gb5, gb6, gb7, gb8]

/-- Squared CIE76 ΔE between two Lab colors (the `palette` crate's
`delta_e` for `Lab` is the Euclidean distance in L*a*b*). -/
def deltaEsq (p c : LabQ) : ℚ :=
  (p.l - c.l) ^ 2 + (p.a - c.a) ^ 2 + (p.b - c.b) ^ 2

/-- The sort key computed by `harmonize_color`'s
`min_by_key(|&&c| (original.delta_e(c) * 1000.0) as u32)`: the ΔE value is
scaled by 1000 and cast to `u32` (Rust float→int `as` casts truncate toward
zero and saturate, so for the nonnegative ΔE this is the floor capped at
`u32::MAX`). -/
noncomputable def deKey (p c : LabQ) : ℕ :=
  min ⌊Real.sqrt ((deltaEsq p c : ℚ) : ℝ) * 1000⌋₊ (2 ^ 32 - 1)

/-- Rust's `Iterator::min_by_key` over a nonempty sequence `c :: cs`:
a left fold that replaces the current best only on a strictly smaller key,
so the first element attaining the minimal key is returned. -/
def minByKeyFold {α : Type} (key : α → ℕ) (c : α) (cs : List α) : α :=
  cs.foldl (fun best x => if key x < key best then x else best) c

/-- The nearest-palette selection of `harmonize_color` (lines 97–99):
`GRUVBOX_LAB.iter().min_by_key(...).unwrap()`.  The `unwrap` never panics
because the palette list is a nonempty literal. -/
noncomputable def nearestTarget (p : LabQ) : LabQ :=
  match GRUVBOX_LAB with
  | [] => p
  | c :: cs => minByKeyFold (deKey p) c cs

/-- Rust `f32::recip`: `recip 0.0` is infinite, which the subsequent
arithmetic of `blend_channel` turns into a non-finite result; `none` marks
this non-finite case. -/
noncomputable def fRecip (x : ℝ) : Option ℝ := if x = 0 then none else some x⁻¹

/-- The inner `blend_channel` of `harmonize_color` (lines 103–105):
`mix = strength * (1.0 - (-4.0 * (orig - tgt).abs()).exp()).recip()` and
`orig * (1.0 - mix) + tgt * mix`.  When `orig = tgt` the reciprocal is
taken of `0.0` and the result is non-finite (`none`). -/
noncomputable def blend_channel (orig tgt strength : ℝ) : Option ℝ :=
  (fRecip (1 - Real.exp (-4 * |orig - tgt|))).map fun r =>
    let mix := strength * r
    orig * (1 - mix) + tgt * mix

/-- The chroma-blend formula as the spec states it (a second definition,
following the spec's words, for comparison with `blend_channel`):
`mix = strength / (1 + exp(-4 * |orig - target|))`, then
`result = orig*(1-mix) + target*mix`. -/
noncomputable def specBlendChannel (orig tgt strength : ℝ) : ℝ :=
  let mix := strength * (1 + Real.exp (-4 * |orig - tgt|))⁻¹
  orig * (1 - mix) + tgt * mix

/-- Result of `harmonize_color`: lightness is a plain arithmetic mix and is
always finite; the two chroma channels may be non-finite (`none`). -/
@[ext] structure LabBlend where
  l : ℝ
  a : Option ℝ
  b : Option ℝ

/-- `harmonize_color` (lines 96–112): nearest-palette match, fixed
0.98/0.02 lightness mix, sigmoid-intended chroma blend on `a` and `b`. -/
noncomputable def harmonize_color (original : LabQ) (strength : ℝ) : LabBlend :=
  let target := nearestTarget original
  { l := (original.l : ℝ) * 0.98 + (target.l : ℝ) * 0.02
    a := blend_channel (original.a : ℝ) (target.a : ℝ) strength
    b := blend_channel (original.b : ℝ) (target.b : ℝ) strength }

/-- `strength.clamp(0.0, 1.0)` at the top of `enhanced_harmonization`. -/
noncomputable def clampStrength (s : ℝ) : ℝ := min (max s 0) 1

/-- One pixel of `enhanced_harmonization` after conversion to Lab: clamp the
strength, harmonize, then — when an edge mask is supplied — recombine the
lightness with the original using the mask value (0–255) normalized to
[0, 1] as interpolation weight (lines 78–81). -/
noncomputable def harmonizePixel (orig : LabQ) (strength : ℝ) (maskVal : Option ℕ) :
    LabBlend :=
  let s := clampStrength strength
  let h := harmonize_color orig s
  match maskVal with
  | none => h
  | some m =>
      { h with l := (orig.l : ℝ) * (1 - (m : ℝ) / 255) + h.l * ((m : ℝ) / 255) }

/-- The fixed contrast-compensation multiplier of `enhanced_harmonization`. -/
noncomputable def contrast_boost : ℝ := 1.08

/-- Rust `f32::clamp(x, 0.0, 1.0)` for a finite value. -/
noncomputable def clamp01 (x : ℝ) : ℝ := min (max x 0) 1

/-- Rust saturating `as u8` cast of a possibly-non-finite `f32`: truncate
toward zero, saturate into [0, 255]; the non-finite (`none`, NaN-like) case
casts to 0. -/
noncomputable def castU8 : Option ℝ → ℕ
  | none => 0
  | some x => min ⌊x⌋₊ 255

/-- The writeback of one sRGB channel (lines 85–92): multiply the converted
channel by `contrast_boost`, clamp to [0, 1], scale by 255, cast to `u8`.
The input is an arbitrary conversion output (the Lab→sRGB conversion is
external library code), possibly non-finite. -/
noncomputable def storeChannel (v : Option ℝ) : ℕ :=
  castU8 ((v.map fun x => clamp01 (x * contrast_boost)).map fun y => y * 255)

/-- `GrayImage::get_pixel` of the `image` crate panics when `(x, y)` lies
outside the mask's dimensions; the panic is modeled as `none`. -/
def maskGet (mw mh : ℕ) (mask : ℕ → ℕ → ℕ) (x y : ℕ) : Option ℕ :=
  if x < mw ∧ y < mh then some (mask x y) else none

/-- The per-pixel loop of `enhanced_harmonization` run with an edge mask of
dimensions `mw × mh` over a `w × h` buffer completes without panicking iff
every buffer coordinate is inside the mask (the mask is only read, so only
the bounds checks of `get_pixel` can abort the loop). -/
def harmonizeRunOk (w h mw mh : ℕ) (mask : ℕ → ℕ → ℕ) : Bool :=
  (List.range w).all fun x => (List.range h).all fun y =>
    (maskGet mw mh mask x y).isSome

/-- Concrete counterexample input for the ΔE-truncation claim: the point
`red + t·(orange − red)` with `t = 0.5000003`, slightly closer to orange
than to red but inside the same integer-millesimal ΔE bucket for both. -/
def cex2 : LabQ :=
  ⟨48845002691/1000000000, 47584995311/1000000000, 44955004695/1000000000⟩

theorem deltaEsq_nonneg (p c : LabQ) : 0 ≤ deltaEsq p c := by
  unfold deltaEsq; positivity

theorem deltaEsq_self (p : LabQ) : deltaEsq p p = 0 := by
  simp [deltaEsq]

/-- Scale the sort key's floor-of-square-root into the rationals:
`⌊1000·√q⌋ = n` exactly when `n² ≤ 10⁶·q < (n+1)²`. -/
theorem deKey_eq_of_bounds (p c : LabQ) (n : ℕ) (hn : n < 2 ^ 32 - 1)
    (h1 : (n : ℚ) ^ 2 ≤ 1000000 * deltaEsq p c)
    (h2 : 1000000 * deltaEsq p c < ((n : ℚ) + 1) ^ 2) :
    deKey p c = n := by
  have hq : (0 : ℝ) ≤ ((deltaEsq p c : ℚ) : ℝ) := by
    exact_mod_cast deltaEsq_nonneg p c
  have hmul : Real.sqrt ((deltaEsq p c : ℚ) : ℝ) * 1000 =
      Real.sqrt (1000000 * ((deltaEsq p c : ℚ) : ℝ)) := by
    rw [Real.sqrt_mul (by norm_num : (0:ℝ) ≤ 1000000)]
    rw [show Real.sqrt 1000000 = 1000 by
      rw [show (1000000 : ℝ) = 1000 ^ 2 by norm_num, Real.sqrt_sq (by norm_num)]]
    ring
  have hfloor : ⌊Real.sqrt ((deltaEsq p c : ℚ) : ℝ) * 1000⌋₊ = n := by
    rw [hmul]
    rw [Nat.floor_eq_iff (Real.sqrt_nonneg _)]
    constructor
    · rw [Real.le_sqrt (by positivity) (by positivity)]
      exact_mod_cast h1
    · have := Real.sqrt_lt' (x := 1000000 * ((deltaEsq p c : ℚ) : ℝ)) (y := (n : ℝ) + 1)
        (by positivity)
      rw [this]
      exact_mod_cast h2
  rw [deKey, hfloor]
  exact min_eq_left (Nat.le_of_lt hn)

/-- The key is at least 1 as soon as `10⁶·ΔE² ≥ 1`. -/
theorem one_le_deKey (p c : LabQ) (h : 1 ≤ 1000000 * deltaEsq p c) :
    1 ≤ deKey p c := by
  have hq : (0 : ℝ) ≤ ((deltaEsq p c : ℚ) : ℝ) := by
    exact_mod_cast deltaEsq_nonneg p c
  refine le_min ?_ (by norm_num)
  refine Nat.le_floor ?_
  have h1 : (1 : ℝ) ≤ 1000000 * ((deltaEsq p c : ℚ) : ℝ) := by exact_mod_cast h
  have hsq : (1 : ℝ) ≤ Real.sqrt (1000000 * ((deltaEsq p c : ℚ) : ℝ)) := by
    rw [Real.le_sqrt (by norm_num) (by positivity)]
    nlinarith
  have hmul : Real.sqrt (1000000 * ((deltaEsq p c : ℚ) : ℝ)) =
      Real.sqrt ((deltaEsq p c : ℚ) : ℝ) * 1000 := by
    rw [Real.sqrt_mul (by norm_num : (0:ℝ) ≤ 1000000)]
    rw [show Real.sqrt 1000000 = 1000 by
      rw [show (1000000 : ℝ) = 1000 ^ 2 by norm_num, Real.sqrt_sq (by norm_num)]]
    ring
  rw [hmul] at hsq
  exact_mod_cast hsq

/-- The key is monotone in the squared distance. -/
theorem deKey_mono (p : LabQ) {c c' : LabQ}
    (h : deltaEsq p c ≤ deltaEsq p c') : deKey p c ≤ deKey p c' := by
  have : ((deltaEsq p c : ℚ) : ℝ) ≤ ((deltaEsq p c' : ℚ) : ℝ) := by exact_mod_cast h
  exact min_le_min
    (Nat.floor_mono (by
      have := Real.sqrt_le_sqrt this
      nlinarith [Real.sqrt_nonneg ((deltaEsq p c : ℚ) : ℝ)]))
    le_rfl

/-- Bucket separation: when an integer `n` separates the scaled squared
distances, the keys are strictly ordered (saturation included). -/
theorem deKey_lt_deKey (p c c' : LabQ) (n : ℕ) (hn : n ≤ 2 ^ 32 - 1)
    (h1 : 1000000 * deltaEsq p c < (n : ℚ) ^ 2)
    (h2 : (n : ℚ) ^ 2 ≤ 1000000 * deltaEsq p c') :
    deKey p c < deKey p c' := by
  have hq : (0 : ℝ) ≤ ((deltaEsq p c : ℚ) : ℝ) := by
    exact_mod_cast deltaEsq_nonneg p c
  have hq' : (0 : ℝ) ≤ ((deltaEsq p c' : ℚ) : ℝ) := by
    exact_mod_cast deltaEsq_nonneg p c'
  have hnpos : 0 < n := by
    by_contra hz
    push_neg at hz
    interval_cases n
    · simp only [Nat.cast_zero] at h1
      nlinarith [deltaEsq_nonneg p c]
  have hmul : ∀ q : ℚ, (0:ℝ) ≤ (q:ℝ) → Real.sqrt ((q : ℚ) : ℝ) * 1000 =
      Real.sqrt (1000000 * ((q : ℚ) : ℝ)) := by
    intro q hq0
    rw [Real.sqrt_mul (by norm_num : (0:ℝ) ≤ 1000000)]
    rw [show Real.sqrt 1000000 = 1000 by
      rw [show (1000000 : ℝ) = 1000 ^ 2 by norm_num, Real.sqrt_sq (by norm_num)]]
    ring
  have hlt : deKey p c < n := by
    have hfl : ⌊Real.sqrt ((deltaEsq p c : ℚ) : ℝ) * 1000⌋₊ < n := by
      rw [Nat.floor_lt (by positivity), hmul _ hq]
      rw [Real.sqrt_lt' (by exact_mod_cast hnpos)]
      exact_mod_cast h1
    exact lt_of_le_of_lt (min_le_left _ _) hfl
  have hge : n ≤ deKey p c' := by
    refine le_min ?_ hn
    refine Nat.le_floor ?_
    rw [hmul _ hq']
    rw [Real.le_sqrt (by positivity) (by positivity)]
    exact_mod_cast h2
  exact lt_of_lt_of_le hlt hge

theorem deKey_self (p : LabQ) : deKey p p = 0 := by
  simp [deKey, deltaEsq_self]

theorem minByKeyFold_cons {α : Type} (key : α → ℕ) (c x : α) (xs : List α) :
    minByKeyFold key c (x :: xs) =
      minByKeyFold key (if key x < key c then x else c) xs := rfl

/-- The fold keeps its base when the base already has a minimal key. -/
theorem minByKeyFold_eq_self {α : Type} (key : α → ℕ) (c : α) (cs : List α)
    (h : ∀ x ∈ cs, key c ≤ key x) : minByKeyFold key c cs = c := by
  induction cs with
  | nil => rfl
  | cons x xs ih =>
      rw [minByKeyFold_cons, if_neg (not_lt.mpr (h x (List.mem_cons_self x xs)))]
      exact ih fun y hy => h y (List.mem_cons_of_mem _ hy)

theorem minByKeyFold_append {α : Type} (key : α → ℕ) :
    ∀ (l1 : List α) (base a : α) (l2 : List α),
      key a < key base → (∀ x ∈ l1, key a < key x) → (∀ x ∈ l2, key a ≤ key x) →
      minByKeyFold key base (l1 ++ a :: l2) = a := by
  intro l1
  induction l1 with
  | nil =>
      intro base a l2 hb _ h2
      rw [List.nil_append, minByKeyFold_cons, if_pos hb]
      exact minByKeyFold_eq_self key a l2 h2
  | cons x xs ih =>
      intro base a l2 hb h1 h2
      rw [List.cons_append, minByKeyFold_cons]
      have hx : key a < key x := h1 x (List.mem_cons_self x xs)
      refine ih _ a l2 ?_ (fun y hy => h1 y (List.mem_cons_of_mem _ hy)) h2
      split
      · exact hx
      · exact hb

/-- Rust's `min_by_key` returns the (unique) element whose key is strictly
below everything before it and at most everything after it. -/
theorem minByKeyFold_first_min {α : Type} (key : α → ℕ) (c : α) (cs : List α)
    (pre : List α) (a : α) (suf : List α)
    (hd : c :: cs = pre ++ a :: suf)
    (hpre : ∀ x ∈ pre, key a < key x) (hsuf : ∀ x ∈ suf, key a ≤ key x) :
    minByKeyFold key c cs = a := by
  cases pre with
  | nil =>
      simp only [List.nil_append, List.cons.injEq] at hd
      rw [hd.1, hd.2]
      exact minByKeyFold_eq_self key a suf hsuf
  | cons b pre' =>
      simp only [List.cons_append, List.cons.injEq] at hd
      obtain ⟨hcb, hcs⟩ := hd
      subst hcb
      subst hcs
      exact minByKeyFold_append key pre' c a suf
        (hpre c (List.mem_cons_self c pre'))
        (fun x hx => hpre x (List.mem_cons_of_mem _ hx)) hsuf

/-- Full characterization of `min_by_key`'s result: it occurs in the list,
its key is minimal, and its key is strictly smaller than the key of every
element occurring before it (first-index tie-break). -/
theorem minByKeyFold_spec {α : Type} (key : α → ℕ) (c : α) (cs : List α) :
    ∃ pre suf, c :: cs = pre ++ minByKeyFold key c cs :: suf ∧
      (∀ x ∈ c :: cs, key (minByKeyFold key c cs) ≤ key x) ∧
      (∀ x ∈ pre, key (minByKeyFold key c cs) < key x) := by
  induction cs generalizing c with
  | nil =>
      exact ⟨[], [], rfl, by
        intro x hx
        simp only [List.mem_singleton] at hx
        subst hx
        exact le_rfl, by simp⟩
  | cons x xs ih =>
      rw [minByKeyFold_cons]
      by_cases hcx : key x < key c
      · rw [if_pos hcx]
        obtain ⟨pre, suf, hdec, hmin, hpre⟩ := ih x
        refine ⟨c :: pre, suf, by rw [List.cons_append, ← hdec], ?_, ?_⟩
        · intro y hy
          rcases List.mem_cons.mp hy with hy | hy
          · subst hy
            exact le_of_lt (lt_of_le_of_lt
              (hmin x (List.mem_cons_self x xs)) hcx)
          · exact hmin y (hdec ▸ hy)
        · intro y hy
          rcases List.mem_cons.mp hy with hy | hy
          · subst hy
            exact lt_of_le_of_lt (hmin x (List.mem_cons_self x xs)) hcx
          · exact hpre y hy
      · rw [if_neg hcx]
        push_neg at hcx
        obtain ⟨pre, suf, hdec, hmin, hpre⟩ := ih c
        set r := minByKeyFold key c xs with hr
        cases pre with
        | nil =>
            simp only [List.nil_append, List.cons.injEq] at hdec
            refine ⟨[], x :: xs, ?_, ?_, by simp⟩
            · rw [List.nil_append, hdec.1]
            · intro y hy
              rcases List.mem_cons.mp hy with hy | hy
              · subst hy
                exact le_of_eq (congrArg key hdec.1.symm)
              · rcases List.mem_cons.mp hy with hy | hy
                · subst hy
                  exact le_trans (le_of_eq (congrArg key hdec.1.symm)) hcx
                · exact hmin y (List.mem_cons_of_mem _ hy)
        | cons b pre' =>
            simp only [List.cons_append, List.cons.injEq] at hdec
            have hrb : key r < key c := by
              rw [hdec.1]
              exact hpre b (List.mem_cons_self b pre')
            refine ⟨c :: x :: pre', suf, ?_, ?_, ?_⟩
            · rw [List.cons_append, List.cons_append, hdec.2]
            · intro y hy
              rcases List.mem_cons.mp hy with hy | hy
              · subst hy
                exact le_of_lt hrb
              · rcases List.mem_cons.mp hy with hy | hy
                · subst hy
                  exact le_of_lt (lt_of_lt_of_le hrb hcx)
                · exact hmin y (List.mem_cons_of_mem _ hy)
            · intro y hy
              rcases List.mem_cons.mp hy with hy | hy
              · subst hy
                exact hrb
              · rcases List.mem_cons.mp hy with hy | hy
                · subst hy
                  exact lt_of_lt_of_le hrb hcx
                · refine hpre y ?_
                  exact List.mem_cons_of_mem _ hy

theorem nearestTarget_def (p : LabQ) :
    nearestTarget p =
      minByKeyFold (deKey p) gb0 [gb1, gb2, gb3, gb4, gb5, gb6, gb7, gb8] := rfl

theorem nearestTarget_gb0 : nearestTarget gb0 = gb0 := by
  rw [nearestTarget_def]
  refine minByKeyFold_first_min _ _ _ [] gb0 [gb1, gb2, gb3, gb4, gb5, gb6, gb7, gb8]
    rfl (by simp) ?_
  intro x hx
  rw [deKey_self]
  exact Nat.zero_le _

theorem nearestTarget_gb1 : nearestTarget gb1 = gb1 := by
  rw [nearestTarget_def]
  refine minByKeyFold_first_min _ _ _ [gb0] gb1 [gb2, gb3, gb4, gb5, gb6, gb7, gb8]
    rfl ?_ ?_
  · intro x hx
    fin_cases hx
    rw [deKey_self]
    exact one_le_deKey _ _ (by norm_num [deltaEsq, gb0, gb1])
  · intro x hx
    rw [deKey_self]
    exact Nat.zero_le _

theorem nearestTarget_gb2 : nearestTarget gb2 = gb2 := by
  rw [nearestTarget_def]
  refine minByKeyFold_first_min _ _ _ [gb0, gb1] gb2 [gb3, gb4, gb5, gb6, gb7, gb8]
    rfl ?_ ?_
  · intro x hx
    fin_cases hx <;>
      (rw [deKey_self]
       exact one_le_deKey _ _
        (by norm_num [deltaEsq, gb0, gb1, gb2, gb3, gb4, gb5, gb6, gb7, gb8]))
  · intro x hx
    rw [deKey_self]
    exact Nat.zero_le _

theorem nearestTarget_gb3 : nearestTarget gb3 = gb3 := by
  rw [nearestTarget_def]
  refine minByKeyFold_first_min _ _ _ [gb0, gb1, gb2] gb3 [gb4, gb5, gb6, gb7, gb8]
    rfl ?_ ?_
  · intro x hx
    fin_cases hx <;>
      (rw [deKey_self]
       exact one_le_deKey _ _
        (by norm_num [deltaEsq, gb0, gb1, gb2, gb3, gb4, gb5, gb6, gb7, gb8]))
  · intro x hx
    rw [deKey_self]
    exact Nat.zero_le _

theorem nearestTarget_gb4 : nearestTarget gb4 = gb4 := by
  rw [nearestTarget_def]
  refine minByKeyFold_first_min _ _ _ [gb0, gb1, gb2, gb3] gb4 [gb5, gb6, gb7, gb8]
    rfl ?_ ?_
  · intro x hx
    fin_cases hx <;>
      (rw [deKey_self]
       exact one_le_deKey _ _
        (by norm_num [deltaEsq, gb0, gb1, gb2, gb3, gb4, gb5, gb6, gb7, gb8]))
  · intro x hx
    rw [deKey_self]
    exact Nat.zero_le _

theorem nearestTarget_gb5 : nearestTarget gb5 = gb5 := by
  rw [nearestTarget_def]
  refine minByKeyFold_first_min _ _ _ [gb0, gb1, gb2, gb3, gb4] gb5 [gb6, gb7, gb8]
    rfl ?_ ?_
  · intro x hx
    fin_cases hx <;>
      (rw [deKey_self]
       exact one_le_deKey _ _
        (by norm_num [deltaEsq, gb0, gb1, gb2, gb3, gb4, gb5, gb6, gb7, gb8]))
  · intro x hx
    rw [deKey_self]
    exact Nat.zero_le _

theorem nearestTarget_gb6 : nearestTarget gb6 = gb6 := by
  rw [nearestTarget_def]
  refine minByKeyFold_first_min _ _ _ [gb0, gb1, gb2, gb3, gb4, gb5] gb6 [gb7, gb8]
    rfl ?_ ?_
  · intro x hx
    fin_cases hx <;>
      (rw [deKey_self]
       exact one_le_deKey _ _
        (by norm_num [deltaEsq, gb0, gb1, gb2, gb3, gb4, gb5, gb6, gb7, gb8]))
  · intro x hx
    rw [deKey_self]
    exact Nat.zero_le _

theorem nearestTarget_gb7 : nearestTarget gb7 = gb7 := by
  rw [nearestTarget_def]
  refine minByKeyFold_first_min _ _ _ [gb0, gb1, gb2, gb3, gb4, gb5, gb6] gb7 [gb8]
    rfl ?_ ?_
  · intro x hx
    fin_cases hx <;>
      (rw [deKey_self]
       exact one_le_deKey _ _
        (by norm_num [deltaEsq, gb0, gb1, gb2, gb3, gb4, gb5, gb6, gb7, gb8]))
  · intro x hx
    rw [deKey_self]
    exact Nat.zero_le _

theorem nearestTarget_gb8 : nearestTarget gb8 = gb8 := by
  rw [nearestTarget_def]
  refine minByKeyFold_first_min _ _ _ [gb0, gb1, gb2, gb3, gb4, gb5, gb6, gb7] gb8 []
    rfl ?_ ?_
  · intro x hx
    fin_cases hx <;>
      (rw [deKey_self]
       exact one_le_deKey _ _
        (by norm_num [deltaEsq, gb0, gb1, gb2, gb3, gb4, gb5, gb6, gb7, gb8]))
  · intro x hx
    simp at hx

theorem nearestTarget_origin : nearestTarget ⟨0, 0, 0⟩ = gb0 := by
  rw [nearestTarget_def]
  refine minByKeyFold_first_min _ _ _ [] gb0 [gb1, gb2, gb3, gb4, gb5, gb6, gb7, gb8]
    rfl (by simp) ?_
  intro x hx
  fin_cases hx <;>
    exact deKey_mono _
      (by norm_num [deltaEsq, gb0, gb1, gb2, gb3, gb4, gb5, gb6, gb7, gb8])

theorem nearestTarget_cex2 : nearestTarget cex2 = gb2 := by
  rw [nearestTarget_def]
  refine minByKeyFold_first_min _ _ _ [gb0, gb1] gb2 [gb3, gb4, gb5, gb6, gb7, gb8]
    rfl ?_ ?_
  · intro x hx
    fin_cases hx <;>
      exact deKey_lt_deKey cex2 gb2 _ 20000 (by norm_num)
        (by norm_num [deltaEsq, cex2, gb2])
        (by norm_num [deltaEsq, cex2, gb0, gb1])
  · intro x hx
    fin_cases hx
    case _ => -- gb3
      exact le_of_lt (deKey_lt_deKey cex2 gb2 _ 20000 (by norm_num)
        (by norm_num [deltaEsq, cex2, gb2]) (by norm_num [deltaEsq, cex2, gb3]))
    case _ => -- gb4
      exact le_of_lt (deKey_lt_deKey cex2 gb2 _ 20000 (by norm_num)
        (by norm_num [deltaEsq, cex2, gb2]) (by norm_num [deltaEsq, cex2, gb4]))
    case _ => -- gb5
      exact le_of_lt (deKey_lt_deKey cex2 gb2 _ 20000 (by norm_num)
        (by norm_num [deltaEsq, cex2, gb2]) (by norm_num [deltaEsq, cex2, gb5]))
    case _ => -- gb6
      exact le_of_lt (deKey_lt_deKey cex2 gb2 _ 20000 (by norm_num)
        (by norm_num [deltaEsq, cex2, gb2]) (by norm_num [deltaEsq, cex2, gb6]))
    case _ => -- gb7
      exact le_of_lt (deKey_lt_deKey cex2 gb2 _ 20000 (by norm_num)
        (by norm_num [deltaEsq, cex2, gb2]) (by norm_num [deltaEsq, cex2, gb7]))
    case _ => -- gb8
      rw [deKey_eq_of_bounds cex2 gb2 11933 (by norm_num)
            (by norm_num [deltaEsq, cex2, gb2]) (by norm_num [deltaEsq, cex2, gb2]),
          deKey_eq_of_bounds cex2 gb8 11933 (by norm_num)
            (by norm_num [deltaEsq, cex2, gb8]) (by norm_num [deltaEsq, cex2, gb8])]

/-- At a chroma tie the implemented blend takes `recip 0.0`: the result is
non-finite for every strength (infinite `mix`, or NaN `0 * inf`, and in all
cases a NaN final sum). -/
theorem blend_channel_self (x s : ℝ) : blend_channel x x s = none := by
  simp [blend_channel, fRecip]

theorem one_sub_exp_ne_zero {o t : ℝ} (h : o ≠ t) :
    1 - Real.exp (-4 * |o - t|) ≠ 0 := by
  have habs : 0 < |o - t| := abs_pos.mpr (sub_ne_zero.mpr h)
  have : Real.exp (-4 * |o - t|) < 1 := by
    rw [Real.exp_lt_one_iff]
    nlinarith
  intro hc
  nlinarith

/-- Away from ties the blend is the finite value
`orig * (1 - mix) + tgt * mix` with `mix = s / (1 - exp (-4|orig-tgt|))`. -/
theorem blend_channel_of_ne {o t : ℝ} (s : ℝ) (h : o ≠ t) :
    blend_channel o t s =
      some (o * (1 - s * (1 - Real.exp (-4 * |o - t|))⁻¹) +
        t * (s * (1 - Real.exp (-4 * |o - t|))⁻¹)) := by
  rw [blend_channel, fRecip, if_neg (one_sub_exp_ne_zero h)]
  rfl

theorem blend_channel_zero {o t : ℝ} (h : o ≠ t) :
    blend_channel o t 0 = some o := by
  rw [blend_channel_of_ne 0 h]
  norm_num

theorem clampStrength_zero : clampStrength 0 = 0 := by
  simp [clampStrength]

/-- Lower bound `3/5 ≤ exp (-2/5)` from `1 + x ≤ exp x`. -/
theorem exp_neg_twoFifths_ge : (3 / 5 : ℝ) ≤ Real.exp (-(2 / 5)) := by
  have h := Real.add_one_le_exp (-(2 / 5) : ℝ)
  linarith

/-- Upper bound `exp (-2/5) ≤ 5/7` from `1 + x ≤ exp x` at `x = 2/5`. -/
theorem exp_neg_twoFifths_le : Real.exp (-(2 / 5)) ≤ (5 / 7 : ℝ) := by
  have h := Real.add_one_le_exp (2 / 5 : ℝ)
  have hpos : (0 : ℝ) < Real.exp (2 / 5) := Real.exp_pos _
  rw [Real.exp_neg]
  rw [inv_le_comm₀ (by positivity) (by norm_num)]
  linarith

/-- C1: the claim states that `blend_channel` equals the reference sigmoid
formula `mix = s / (1 + exp (-4|orig-tgt|))`.  It does not: the code divides
by `1 - exp (-4|orig-tgt|)` instead, so the implemented blend differs from
the reference formula at every input with `orig ≠ tgt` and positive
strength, and at `orig = tgt` (where the reference formula returns the
finite value `orig`) the code divides by zero and produces a non-finite
result.  The code's own comment calls the blend "sigmoid-based", so the
code contradicts its stated intent (code bug). -/
theorem c1_blend_formula_diverges (o t s : ℝ) (ho : o ≠ t) (hs : 0 < s) :
    blend_channel o t s ≠ some (specBlendChannel o t s) ∧
      blend_channel t t s = none := by
  refine ⟨?_, blend_channel_self t s⟩
  rw [blend_channel_of_ne s ho]
  intro hc
  rw [Option.some_inj] at hc
  simp only [specBlendChannel] at hc
  set E := Real.exp (-4 * |o - t|) with hE
  have hE0 : 0 < E := Real.exp_pos _
  have hE1 : E < 1 := by
    rw [hE, Real.exp_lt_one_iff]
    have : 0 < |o - t| := abs_pos.mpr (sub_ne_zero.mpr ho)
    nlinarith
  have hz : s * ((1 - E)⁻¹ - (1 + E)⁻¹) * (t - o) = 0 := by
    linear_combination hc
  rcases mul_eq_zero.mp hz with hz | hz
  · rcases mul_eq_zero.mp hz with hz | hz
    · exact absurd hz (ne_of_gt hs)
    · have : (1 - E)⁻¹ = (1 + E)⁻¹ := by linarith
      rw [inv_inj] at this
      linarith
  · exact absurd hz (sub_ne_zero.mpr (Ne.symm ho))

/-- C1 witness: the divergence instantiated at `orig = 0`, `tgt = 1`,
`strength = 1`. -/
theorem c1_blend_formula_diverges_w :
    blend_channel 0 1 1 ≠ some (specBlendChannel 0 1 1) ∧
      blend_channel 1 1 1 = none :=
  c1_blend_formula_diverges 0 1 1 (by norm_num) (by norm_num)

/-- C3: the claim states that blending returns finite channels for every
finite input, "including the case where an original chroma channel exactly
equals the matched target's channel".  Exactly that case is non-finite in
the code: with the palette's foreground color itself as input, the matched
target is the input, `recip` is taken of `0.0`, and the `a` channel of the
result is non-finite for every strength (code bug, same root cause as C1). -/
theorem c3_tie_input_nonfinite (s : ℝ) : (harmonize_color gb1 s).a = none := by
  show blend_channel ((gb1.a : ℚ) : ℝ) (((nearestTarget gb1).a : ℚ) : ℝ) s = none
  rw [nearestTarget_gb1]
  exact blend_channel_self _ _

/-- C4 counterexample: at zero strength and no mask the chroma is NOT always
unchanged: for a pixel whose Lab value is the background palette color
itself, the matched target ties the original chroma, and the `a` channel of
the blend is non-finite (NaN) instead of the unchanged `0.16`. -/
theorem c4_zero_strength_not_identity_at_tie :
    (harmonizePixel gb0 0 none).a = none ∧
      (harmonizePixel gb0 0 none).a ≠ some ((gb0.a : ℚ) : ℝ) := by
  have h : (harmonizePixel gb0 0 none).a = none := by
    show (harmonize_color gb0 (clampStrength 0)).a = none
    show blend_channel ((gb0.a : ℚ) : ℝ) (((nearestTarget gb0).a : ℚ) : ℝ)
      (clampStrength 0) = none
    rw [nearestTarget_gb0]
    exact blend_channel_self _ _
  refine ⟨h, ?_⟩
  rw [h]
  exact fun hc => Option.noConfusion hc

/-- C4 as amended: at zero strength with no mask, every pixel whose chroma
channels do not exactly tie the matched target's keeps its chroma exactly,
and the lightness changes only by the fixed 0.98/0.02 blend toward the
target. -/
theorem c4_zero_strength_identity_off_ties (o : LabQ)
    (ha : ((o.a : ℚ) : ℝ) ≠ (((nearestTarget o).a : ℚ) : ℝ))
    (hb : ((o.b : ℚ) : ℝ) ≠ (((nearestTarget o).b : ℚ) : ℝ)) :
    harmonizePixel o 0 none =
      ⟨((o.l : ℚ) : ℝ) * 0.98 + (((nearestTarget o).l : ℚ) : ℝ) * 0.02,
        some ((o.a : ℚ) : ℝ), some ((o.b : ℚ) : ℝ)⟩ := by
  show harmonize_color o (clampStrength 0) = _
  rw [clampStrength_zero]
  refine LabBlend.ext rfl ?_ ?_
  · exact blend_channel_zero ha
  · exact blend_channel_zero hb

/-- C4 witness: the amended identity instantiated at the Lab origin, whose
nearest palette entry is the background color with distinct chroma. -/
theorem c4_zero_strength_identity_off_ties_w :
    harmonizePixel ⟨0, 0, 0⟩ 0 none =
      ⟨(((⟨0, 0, 0⟩ : LabQ).l : ℚ) : ℝ) * 0.98 +
          (((nearestTarget ⟨0, 0, 0⟩).l : ℚ) : ℝ) * 0.02,
        some (((⟨0, 0, 0⟩ : LabQ).a : ℚ) : ℝ),
        some (((⟨0, 0, 0⟩ : LabQ).b : ℚ) : ℝ)⟩ :=
  c4_zero_strength_identity_off_ties ⟨0, 0, 0⟩
    (by rw [nearestTarget_origin]; norm_num [gb0])
    (by rw [nearestTarget_origin]; norm_num [gb0])

/-- C5 counterexample: increasing strength can move the blended channel AWAY
from the target.  With `orig = 0`, `tgt = 0.1`, the mix factor is
`s / (1 - exp (-0.4)) ≈ 3.03·s`, which overshoots past the target: at
strength `2/5` the result is within `0.04` of the target, while at the
larger strength `1` (both inside the valid clamped range [0, 1]) it is at
least `0.15` away. -/
theorem c5_overshoot_moves_away :
    (0 : ℝ) ≤ 2 / 5 ∧ (2 / 5 : ℝ) < 1 ∧
      |(blend_channel 0 (1 / 10) (2 / 5)).getD 0 - 1 / 10| <
        |(blend_channel 0 (1 / 10) 1).getD 0 - 1 / 10| := by
  refine ⟨by norm_num, by norm_num, ?_⟩
  have ho : (0 : ℝ) ≠ 1 / 10 := by norm_num
  rw [blend_channel_of_ne _ ho, blend_channel_of_ne _ ho]
  simp only [Option.getD_some]
  have hx : (-4 : ℝ) * |(0 : ℝ) - 1 / 10| = -(2 / 5) := by
    rw [abs_of_nonpos (by norm_num)]
    norm_num
  rw [hx]
  set E := Real.exp (-(2 / 5)) with hE
  have hEl : (3 / 5 : ℝ) ≤ E := exp_neg_twoFifths_ge
  have hEu : E ≤ 5 / 7 := exp_neg_twoFifths_le
  have h1E : (0 : ℝ) < 1 - E := by linarith
  set r := (1 - E)⁻¹ with hr
  have hone : (1 - E) * r = 1 := mul_inv_cancel₀ (ne_of_gt h1E)
  have hr0 : 0 < r := inv_pos.mpr h1E
  have hrl : (5 / 2 : ℝ) ≤ r := by nlinarith
  have hru : r ≤ 7 / 2 := by nlinarith
  rw [abs_of_nonneg (by nlinarith), abs_of_nonneg (by nlinarith)]
  nlinarith

/-- C5 as amended: increasing strength moves the blended channel
monotonically toward the target as long as the larger strength's mix factor
`s / (1 - exp (-4|orig-tgt|))` stays at most 1; beyond that the implemented
reciprocal formula overshoots past the target. -/
theorem c5_monotone_while_mix_le_one (o t s1 s2 : ℝ) (ho : o ≠ t)
    (h0 : 0 ≤ s1) (h12 : s1 ≤ s2)
    (hb : s2 * (1 - Real.exp (-4 * |o - t|))⁻¹ ≤ 1) :
    |(blend_channel o t s2).getD 0 - t| ≤
      |(blend_channel o t s1).getD 0 - t| := by
  rw [blend_channel_of_ne s1 ho, blend_channel_of_ne s2 ho]
  simp only [Option.getD_some]
  set E := Real.exp (-4 * |o - t|) with hE
  have hE0 : 0 < E := Real.exp_pos _
  have hE1 : E < 1 := by
    rw [hE, Real.exp_lt_one_iff]
    have : 0 < |o - t| := abs_pos.mpr (sub_ne_zero.mpr ho)
    nlinarith
  have h1E : (0 : ℝ) < 1 - E := by linarith
  set r := (1 - E)⁻¹ with hr
  have hr0 : 0 < r := inv_pos.mpr h1E
  have e1 : o * (1 - s1 * r) + t * (s1 * r) - t = (1 - s1 * r) * (o - t) := by
    ring
  have e2 : o * (1 - s2 * r) + t * (s2 * r) - t = (1 - s2 * r) * (o - t) := by
    ring
  rw [e1, e2, abs_mul, abs_mul]
  have h2 : s2 * r ≤ 1 := hb
  have h1 : s1 * r ≤ 1 := le_trans (mul_le_mul_of_nonneg_right h12 hr0.le) h2
  have h1n : 0 ≤ s1 * r := mul_nonneg h0 hr0.le
  rw [abs_of_nonneg (by linarith : (0 : ℝ) ≤ 1 - s2 * r),
      abs_of_nonneg (by linarith : (0 : ℝ) ≤ 1 - s1 * r)]
  have hs12 : 1 - s2 * r ≤ 1 - s1 * r := by nlinarith
  exact mul_le_mul_of_nonneg_right hs12 (abs_nonneg _)

/-- C5 witness: the amended monotonicity at `orig = 0`, `tgt = 0.1`,
strengths `1/8 ≤ 1/4`, where the mix factor stays below 1. -/
theorem c5_monotone_while_mix_le_one_w :
    |(blend_channel 0 (1 / 10) (1 / 4)).getD 0 - 1 / 10| ≤
      |(blend_channel 0 (1 / 10) (1 / 8)).getD 0 - 1 / 10| :=
  c5_monotone_while_mix_le_one 0 (1 / 10) (1 / 8) (1 / 4) (by norm_num)
    (by norm_num) (by norm_num) (by
      have hx : (-4 : ℝ) * |(0 : ℝ) - 1 / 10| = -(2 / 5) := by
        rw [abs_of_nonpos (by norm_num)]
        norm_num
      rw [hx]
      have hEl := exp_neg_twoFifths_ge
      have hEu := exp_neg_twoFifths_le
      have h1E : (0 : ℝ) < 1 - Real.exp (-(2 / 5)) := by linarith
      have hone : (1 - Real.exp (-(2 / 5))) * (1 - Real.exp (-(2 / 5)))⁻¹ = 1 :=
        mul_inv_cancel₀ (ne_of_gt h1E)
      nlinarith [inv_pos.mpr h1E])

/-- C6: the stored value of every RGB channel is in [0, 255] (it is a `ℕ`
produced by the saturating cast, so only the upper bound is substantive),
and a pre-boost channel value at or above 1 — in particular any value whose
boosted result would exceed the representable range — is clamped to exactly
255, never wrapped. -/
theorem c6_store_clamped (v : Option ℝ) (x : ℝ) (hx : 1 ≤ x) :
    storeChannel v ≤ 255 ∧ storeChannel (some x) = 255 := by
  constructor
  · cases v with
    | none => simp [storeChannel, castU8]
    | some y =>
        simp only [storeChannel, Option.map_some', castU8]
        exact min_le_right _ _
  · have hb : (1 : ℝ) ≤ x * contrast_boost := by
      rw [contrast_boost]
      nlinarith
    have hcl : clamp01 (x * contrast_boost) = 1 := by
      rw [clamp01, max_eq_left (by linarith), min_eq_right hb]
    simp only [storeChannel, Option.map_some', hcl, castU8, one_mul]
    norm_num

/-- C6 witness: a non-finite channel and the channel value 2 (which boosted
lands far above range) both store inside [0, 255]. -/
theorem c6_store_clamped_w :
    storeChannel none ≤ 255 ∧ storeChannel (some 2) = 255 :=
  c6_store_clamped none 2 (by norm_num)

/-- C7: an all-zero edge mask makes every pixel keep exactly its original
lightness, and an all-255 edge mask produces output identical to running
with no mask at all (the mask only ever touches the lightness channel). -/
theorem c7_edge_mask_attenuation (o : LabQ) (s : ℝ) :
    (harmonizePixel o s (some 0)).l = ((o.l : ℚ) : ℝ) ∧
      harmonizePixel o s (some 255) = harmonizePixel o s none := by
  constructor
  · show ((o.l : ℚ) : ℝ) * (1 - ((0 : ℕ) : ℝ) / 255) +
      (harmonize_color o (clampStrength s)).l * (((0 : ℕ) : ℝ) / 255) =
      ((o.l : ℚ) : ℝ)
    norm_num
  · refine LabBlend.ext ?_ rfl rfl
    show ((o.l : ℚ) : ℝ) * (1 - ((255 : ℕ) : ℝ) / 255) +
      (harmonize_color o (clampStrength s)).l * (((255 : ℕ) : ℝ) / 255) =
      (harmonize_color o (clampStrength s)).l
    norm_num

/-- C8: each of the 9 palette colors, given as input, is matched to itself
(its squared ΔE to the selected entry is 0). -/
theorem c8_palette_self_nearest (c : LabQ) (hc : c ∈ GRUVBOX_LAB) :
    nearestTarget c = c ∧ deltaEsq c (nearestTarget c) = 0 := by
  simp only [GRUVBOX_LAB] at hc
  fin_cases hc
  · exact ⟨nearestTarget_gb0, by rw [nearestTarget_gb0]; exact deltaEsq_self _⟩
  · exact ⟨nearestTarget_gb1, by rw [nearestTarget_gb1]; exact deltaEsq_self _⟩
  · exact ⟨nearestTarget_gb2, by rw [nearestTarget_gb2]; exact deltaEsq_self _⟩
  · exact ⟨nearestTarget_gb3, by rw [nearestTarget_gb3]; exact deltaEsq_self _⟩
  · exact ⟨nearestTarget_gb4, by rw [nearestTarget_gb4]; exact deltaEsq_self _⟩
  · exact ⟨nearestTarget_gb5, by rw [nearestTarget_gb5]; exact deltaEsq_self _⟩
  · exact ⟨nearestTarget_gb6, by rw [nearestTarget_gb6]; exact deltaEsq_self _⟩
  · exact ⟨nearestTarget_gb7, by rw [nearestTarget_gb7]; exact deltaEsq_self _⟩
  · exact ⟨nearestTarget_gb8, by rw [nearestTarget_gb8]; exact deltaEsq_self _⟩

/-- C8 witness: the background palette entry matches itself. -/
theorem c8_palette_self_nearest_w :
    nearestTarget gb0 = gb0 ∧ deltaEsq gb0 (nearestTarget gb0) = 0 :=
  c8_palette_self_nearest gb0 (by simp [GRUVBOX_LAB])

theorem maskGet_isSome (mw mh : ℕ) (mask : ℕ → ℕ → ℕ) (x y : ℕ) :
    (maskGet mw mh mask x y).isSome = true ↔ x < mw ∧ y < mh := by
  rw [maskGet]
  by_cases hb : x < mw ∧ y < mh <;> simp [hb]

/-- C9 counterexample: a 2×2 edge mask over a 1×1 buffer is a dimension
mismatch, yet the per-pixel loop completes without any panic (a larger mask
is silently accepted, only its top-left region being read). -/
theorem c9_larger_mask_not_rejected :
    ((1, 1) : ℕ × ℕ) ≠ (2, 2) ∧
      harmonizeRunOk 1 1 2 2 (fun _ _ => 0) = true :=
  ⟨by decide, by decide⟩

/-- C9 as amended: on a nonempty buffer, the harmonization loop fails fast
(an out-of-bounds `get_pixel` panic) exactly when the mask is strictly
smaller than the buffer in some dimension; a mask that is at least as large
as the buffer — equal or strictly larger — completes silently. -/
theorem c9_panic_iff_mask_smaller (w h mw mh : ℕ) (mask : ℕ → ℕ → ℕ)
    (hw : 0 < w) (hh : 0 < h) :
    harmonizeRunOk w h mw mh mask = true ↔ w ≤ mw ∧ h ≤ mh := by
  rw [harmonizeRunOk]
  simp only [List.all_eq_true, List.mem_range, maskGet_isSome]
  constructor
  · intro H
    obtain ⟨h1, h2⟩ := H (w - 1) (by omega) (h - 1) (by omega)
    omega
  · intro H x hx y hy
    omega

/-- C9 witness: the amended criterion at a 1×1 buffer with a 0×5 mask. -/
theorem c9_panic_iff_mask_smaller_w :
    harmonizeRunOk 1 1 0 5 (fun _ _ => 0) = true ↔ 1 ≤ 0 ∧ 1 ≤ 5 :=
  c9_panic_iff_mask_smaller 1 1 0 5 (fun _ _ => 0) (by norm_num) (by norm_num)

/-- C10: for every input color, the selected palette entry occurs in the
palette, its truncated-millesimal key is minimal, and its key is strictly
smaller than the key of every entry occurring before it in the array — so
whenever several entries share the minimal integer bucket the one with the
smallest index is returned; the selection is a plain function of the input
(deterministic). -/
theorem c10_first_min_tiebreak (p : LabQ) :
    ∃ pre suf, GRUVBOX_LAB = pre ++ nearestTarget p :: suf ∧
      (∀ c ∈ GRUVBOX_LAB, deKey p (nearestTarget p) ≤ deKey p c) ∧
      (∀ c ∈ pre, deKey p (nearestTarget p) < deKey p c) := by
  rw [nearestTarget_def]
  obtain ⟨pre, suf, hdec, hmin, hpre⟩ :=
    minByKeyFold_spec (deKey p) gb0 [gb1, gb2, gb3, gb4, gb5, gb6, gb7, gb8]
  exact ⟨pre, suf, hdec, fun c hc => hmin c hc, hpre⟩

/-- C2 counterexample: for the input `red + 0.5000003·(orange − red)` the
matcher returns red (index 2), yet the exact ΔE to orange is strictly
smaller — both distances fall into the same truncated-millesimal bucket
11933, the truncation discards the difference, and the first-index
tie-break picks red.  The returned entry does not minimize the exact ΔE. -/
theorem c2_truncated_argmin_not_exact :
    nearestTarget cex2 = gb2 ∧
      Real.sqrt ((deltaEsq cex2 gb8 : ℚ) : ℝ) <
        Real.sqrt ((deltaEsq cex2 gb2 : ℚ) : ℝ) := by
  refine ⟨nearestTarget_cex2, Real.sqrt_lt_sqrt ?_ ?_⟩
  · exact_mod_cast deltaEsq_nonneg cex2 gb8
  · exact_mod_cast (by norm_num [deltaEsq, cex2, gb2, gb8] :
      deltaEsq cex2 gb8 < deltaEsq cex2 gb2)

/-- C2 as amended: the selection minimizes the ×1000-truncated integer ΔE
key (not the exact floating-point ΔE), and the returned entry is a palette
member. -/
theorem c2_nearest_minimizes_truncated_key (p c : LabQ) (hc : c ∈ GRUVBOX_LAB) :
    nearestTarget p ∈ GRUVBOX_LAB ∧ deKey p (nearestTarget p) ≤ deKey p c := by
  rw [nearestTarget_def]
  obtain ⟨pre, suf, hdec, hmin, _⟩ :=
    minByKeyFold_spec (deKey p) gb0 [gb1, gb2, gb3, gb4, gb5, gb6, gb7, gb8]
  constructor
  · show minByKeyFold (deKey p) gb0 [gb1, gb2, gb3, gb4, gb5, gb6, gb7, gb8] ∈
      GRUVBOX_LAB
    rw [show GRUVBOX_LAB = gb0 :: [gb1, gb2, gb3, gb4, gb5, gb6, gb7, gb8] from rfl,
        hdec]
    exact List.mem_append_right _ (List.mem_cons_self _ _)
  · exact hmin c hc

/-- C2 witness: the truncated-key minimality instantiated at the blue
palette entry against the background entry. -/
theorem c2_nearest_minimizes_truncated_key_w :
    nearestTarget gb5 ∈ GRUVBOX_LAB ∧ deKey gb5 (nearestTarget gb5) ≤ deKey gb5 gb0 :=
  c2_nearest_minimizes_truncated_key gb5 gb0 (by simp [GRUVBOX_LAB])

/-- C3 witness: the non-finite chroma at the foreground input, strength 1. -/
theorem c3_tie_input_nonfinite_w : (harmonize_color gb1 1).a = none :=
  c3_tie_input_nonfinite 1

/-- C7 witness: the mask attenuation equalities at the green palette entry
and strength 1/2. -/
theorem c7_edge_mask_attenuation_w :
    (harmonizePixel gb3 (1 / 2) (some 0)).l = ((gb3.l : ℚ) : ℝ) ∧
      harmonizePixel gb3 (1 / 2) (some 255) = harmonizePixel gb3 (1 / 2) none :=
  c7_edge_mask_attenuation gb3 (1 / 2)

/-- C10 witness: the first-minimum characterization at the purple entry. -/
theorem c10_first_min_tiebreak_w :
    ∃ pre suf, GRUVBOX_LAB = pre ++ nearestTarget gb6 :: suf ∧
      (∀ c ∈ GRUVBOX_LAB, deKey gb6 (nearestTarget gb6) ≤ deKey gb6 c) ∧
      (∀ c ∈ pre, deKey gb6 (nearestTarget gb6) < deKey gb6 c) :=
  c10_first_min_tiebreak gb6

end Gruvboxer
